import Mathlib

/-!
Verification of the markdown preprocessing and file-collection logic of
`src/md2pdf/generate_pdf.py` (mdweaver).  Python strings are embedded as
`List Char`; `pathlib.Path` values are embedded as lists of path components
(`List String`); the filesystem is an explicit `FS` structure listing the
regular files and the directories of the tree.  Whitespace, `[A-Z]`, `\d`
and `str.lower` are modelled over ASCII, matching the intended inputs.
-/

/-- Whitespace characters removed by Python `str.strip()` (ASCII model). -/
def isPySpace (c : Char) : Bool :=
  c == ' ' || c == '\t' || c == '\n' || c == '\r' || c == '\x0b' || c == '\x0c'

/-- Python `line.strip()`: remove leading and trailing whitespace. -/
def stripChars (l : List Char) : List Char :=
  ((l.dropWhile isPySpace).reverse.dropWhile isPySpace).reverse

/-- The character class `[A-Z]` of the regex in `preprocess_markdown`. -/
def isUpperAZ (c : Char) : Bool := 'A' ≤ c && c ≤ 'Z'

/-- ASCII model of Python `str.lower` applied characterwise. -/
def toLowerAZ (c : Char) : Char :=
  if 'A' ≤ c && c ≤ 'Z' then Char.ofNat (c.toNat + 32) else c

/-- The replacement text `&lt;` of `re.sub(r"<([A-Z][^>]*)>", r"&lt;\1&gt;", part)`. -/
def ltEnt : List Char := ['&', 'l', 't', ';']

/-- The replacement text `&gt;` of the same `re.sub`. -/
def gtEnt : List Char := ['&', 'g', 't', ';']

/-- The fence marker `` ``` `` tested by `line.strip().startswith("```")`. -/
def fenceMarker : List Char := ['`', '`', '`']

/-- Python `md_content.split("\n")`: always at least one (possibly empty) line. -/
def splitLines : List Char → List (List Char)
  | [] => [[]]
  | c :: rest =>
    if c = '\n' then [] :: splitLines rest
    else
      match splitLines rest with
      | l :: ls => (c :: l) :: ls
      | [] => [[c]]

/-- Python `"\n".join(processed_lines)`. -/
def joinLines : List (List Char) → List Char
  | [] => []
  | [l] => l
  | l :: rest => l ++ '\n' :: joinLines rest

/-- One attempt of the regex `` `[^`]+` `` after an opening backtick: `rest`
is the text following the backtick; on success returns the span interior
(the maximal nonempty backtick-free run) and the text after the closing
backtick. -/
def takeSpan (rest : List Char) : Option (List Char × List Char) :=
  match rest.dropWhile (fun c => c != '`') with
  | '`' :: after =>
    let inner := rest.takeWhile (fun c => c != '`')
    if inner.isEmpty then none else some (inner, after)
  | _ => none

/-- Python `re.split(r"(`[^`]+`)", line)`: left-to-right scan producing the
alternating non-match/match parts (matched spans kept, as the pattern is a
capture group).  `cur` is the reversed text of the current non-match part;
the fuel argument is always at least the length of the remaining text, so
the fuel-0 fallback is never reached from `splitSpans`. -/
def splitSpansF : Nat → List Char → List Char → List (List Char)
  | 0, cur, l => [cur.reverse ++ l]
  | _ + 1, cur, [] => [cur.reverse]
  | n + 1, cur, c :: rest =>
    if c == '`' then
      match takeSpan rest with
      | some (inner, after) =>
        cur.reverse :: ('`' :: (inner ++ ['`'])) :: splitSpansF n [] after
      | none => splitSpansF n (c :: cur) rest
    else splitSpansF n (c :: cur) rest

/-- The split of a line into code-span and non-code segments. -/
def splitSpans (l : List Char) : List (List Char) := splitSpansF l.length [] l

/-- One attempt of the regex `<([A-Z][^>]*)>` after an opening `<`: `rest`
is the text following the `<`; on success returns the captured group (an
uppercase letter followed by the run up to the first `>`) and the text
after that `>`. -/
def angleSpan (rest : List Char) : Option (List Char × List Char) :=
  match rest with
  | c :: _ =>
    if isUpperAZ c then
      match rest.dropWhile (fun x => x != '>') with
      | '>' :: after => some (rest.takeWhile (fun x => x != '>'), after)
      | _ => none
    else none
  | [] => none

/-- Python `re.sub(r"<([A-Z][^>]*)>", r"&lt;\1&gt;", part)`: left-to-right,
non-overlapping replacement.  The fuel argument is always at least the
length of the remaining text, so the fuel-0 fallback is never reached from
`subAngle`. -/
def subAngleF : Nat → List Char → List Char
  | _, [] => []
  | 0, l => l
  | n + 1, c :: rest =>
    if c == '<' then
      match angleSpan rest with
      | some (inner, after) => ltEnt ++ inner ++ gtEnt ++ subAngleF n after
      | none => c :: subAngleF n rest
    else c :: subAngleF n rest

/-- The angle-bracket escaping applied to one non-code segment. -/
def subAngle (l : List Char) : List Char := subAngleF l.length l

/-- Python `part.startswith("`") and part.endswith("`")`. -/
def startsEndsTick (p : List Char) : Bool :=
  match p.head?, p.getLast? with
  | some c, some d => c == '`' && d == '`'
  | _, _ => false

/-- The body of the per-part loop of `preprocess_markdown`: a segment that
starts and ends with a backtick is kept as is, any other segment has its
angle-bracket type parameters escaped. -/
def processPart (p : List Char) : List Char :=
  if startsEndsTick p then p else subAngle p

/-- Fix 1 of `preprocess_markdown` applied to one line: split the line on
single-backtick code spans and escape angle brackets outside them. -/
def escapeLine (l : List Char) : List Char :=
  ((splitSpans l).map processPart).flatten

/-- Python `line.startswith("- ")`. -/
def startsDash (l : List Char) : Bool := ['-', ' '].isPrefixOf l

/-- Python `line.startswith("#")`. -/
def startsHash (l : List Char) : Bool := ['#'].isPrefixOf l

/-- Continuation of the regex `^\d+\. ` after its first digit. -/
def numTail : List Char → Bool
  | '.' :: ' ' :: _ => true
  | c :: rest => c.isDigit && numTail rest
  | [] => false

/-- Python `re.match(r"^\d+\. ", line)` viewed as a Boolean test. -/
def startsNumDot : List Char → Bool
  | c :: rest => c.isDigit && numTail rest
  | [] => false

/-- Python `line.strip().startswith("```")`. -/
def isFenceLine (l : List Char) : Bool := fenceMarker.isPrefixOf (stripChars l)

/-- The guard on the previous output line for Fix 2 of `preprocess_markdown`:
non-empty after strip, not a bullet item, not a numbered item, not a header. -/
def okPrev (prev : List Char) : Bool :=
  !(stripChars prev).isEmpty && !(startsDash prev) && !(startsNumDot prev) &&
    !(startsHash prev)

/-- The full condition of Fix 2: the (escaped) current line is a list item and
the previously emitted line allows inserting a blank line before it. -/
def needsBlank (e prev : List Char) : Bool :=
  (startsDash e || startsNumDot e) && okPrev prev

/-- The per-line loop of `preprocess_markdown`.  `prev` carries
`processed_lines[-1]` (the previously appended output line); starting it at
the empty line subsumes Python's `i > 0` guard, since the blank-line
insertion requires `prev_line.strip()` to be non-empty and at `i == 0` the
Python code would read `""` as the previous line anyway. -/
def ppLoop : Bool → List Char → List (List Char) → List (List Char)
  | _, _, [] => []
  | inCode, prev, l :: rest =>
    if isFenceLine l then l :: ppLoop (!inCode) l rest
    else if inCode then l :: ppLoop inCode l rest
    else if needsBlank (escapeLine l) prev then
      [] :: escapeLine l :: ppLoop inCode (escapeLine l) rest
    else escapeLine l :: ppLoop inCode (escapeLine l) rest

/-- The loop of `preprocess_markdown` started on the initial state
(`in_code_block = False`, empty `processed_lines`). -/
def processLines (ls : List (List Char)) : List (List Char) := ppLoop false [] ls

/-- `preprocess_markdown` of `src/md2pdf/generate_pdf.py` (lines 35-86). -/
def preprocess_markdown (s : List Char) : List Char :=
  joinLines (processLines (splitLines s))

/-- A filesystem tree: the regular files and the directories, each named by
its list of path components relative to a common root. -/
structure FS where
  files : List (List String)
  dirs : List (List String)

/-- Python `path.is_file()`. -/
def FS.isFile (fs : FS) (p : List String) : Bool := decide (p ∈ fs.files)

/-- Python `path.is_dir()`. -/
def FS.isDir (fs : FS) (p : List String) : Bool := decide (p ∈ fs.dirs)

/-- Python `path.exists()` for the entries the model knows about. -/
def FS.pathExists (fs : FS) (p : List String) : Bool := fs.isFile p || fs.isDir p

/-- All directory entries a glob can see. -/
def FS.entries (fs : FS) : List (List String) := fs.files ++ fs.dirs

/-- Python `path.name`: the final path component. -/
def pathName (p : List String) : String := p.getLastD ""

/-- The extension `.md` as characters. -/
def mdExt : List Char := ['.', 'm', 'd']

/-- One name matching the glob pattern `*.md` (fnmatch: `*` matches any run,
so a name matches exactly when it ends with the literal text `.md`). -/
def matchesStarMd (name : String) : Bool := mdExt.isSuffixOf name.toList

/-- Whether the final component of an entry matches `*.md`. -/
def matchLast (e : List String) : Bool :=
  match e.getLast? with
  | some name => matchesStarMd name
  | none => false

/-- Whether entry `e` is produced by `path.glob(pattern)` for the pattern
`"**/*.md"` (recursive) or `"*.md"` (direct children only). -/
def matchesGlob (p : List String) (recursive : Bool) (e : List String) : Bool :=
  if recursive then
    p.isPrefixOf e && decide (p.length < e.length) && matchLast e
  else
    p.isPrefixOf e && (e.length == p.length + 1) && matchLast e

/-- Python `path.glob(pattern)` for the two patterns used by `get_md_files`. -/
def globMd (fs : FS) (p : List String) (recursive : Bool) : List (List String) :=
  fs.entries.filter (fun e => matchesGlob p recursive e)

/-- The string a `pathlib` path displays as: components joined by `/`.
Python sorts paths by comparing these strings. -/
def pathKey (p : List String) : List Char := ("/".intercalate p).toList

/-- Lexicographic comparison of character lists by code point, as Python
string comparison. -/
def charListLe : List Char → List Char → Bool
  | [], _ => true
  | _ :: _, [] => false
  | a :: as, b :: bs => if a == b then charListLe as bs else decide (a < b)

/-- The path order used by Python `sorted` on `pathlib` paths. -/
def pathR (a b : List String) : Prop := charListLe (pathKey a) (pathKey b) = true

instance : DecidableRel pathR := fun a b =>
  inferInstanceAs (Decidable (charListLe (pathKey a) (pathKey b) = true))

/-- Python `sorted(...)` on the glob results. -/
def sortPaths (l : List (List String)) : List (List String) :=
  List.insertionSort pathR l

/-- Python `pathlib` `suffix` of a file name: from the last dot, provided the
dot is neither the first nor the last character; empty otherwise. -/
def nameSuffix (name : List Char) : List Char :=
  let afterRev := name.reverse.takeWhile (fun c => c != '.')
  match name.reverse.dropWhile (fun c => c != '.') with
  | '.' :: beforeRev =>
    if beforeRev.isEmpty || afterRev.isEmpty then [] else '.' :: afterRev.reverse
  | _ => []

/-- Python `pathlib` `stem`: the name with its suffix removed. -/
def nameStem (name : List Char) : List Char :=
  name.take (name.length - (nameSuffix name).length)

/-- Python `path.suffix.lower()`. -/
def suffixLower (p : List String) : List Char :=
  (nameSuffix (pathName p).toList).map toLowerAZ

/-- `get_md_files` of `src/md2pdf/generate_pdf.py` (lines 89-106); the
`recursive` parameter defaults to `True` in the source and is passed
explicitly here. -/
def get_md_files (fs : FS) (path : List String) (recursive : Bool) :
    List (List String) :=
  if fs.isFile path then
    if suffixLower path == mdExt then [path] else []
  else
    (sortPaths (globMd fs path recursive)).filter (fun f => fs.isFile f)

/-- Python `input_path.stem if input_path.is_file() else input_path.name`. -/
def deriveName (fs : FS) (p : List String) : String :=
  if fs.isFile p then (nameStem (pathName p).toList).asString else pathName p

/-- Control-flow skeleton of `generate_pdf` (lines 551-621): the version is a
parameter (read from the `EXPORT_VERSION` marker in the source), the HTML
and PDF rendering by the external libraries is abstracted away, and the
result is either the fatal diagnostic printed before `sys.exit(1)` or the
path of the written artifact (line 614).  `title` and `watermark` do not
affect this skeleton and are omitted. -/
def generate_pdf (fs : FS) (version : String) (input_path output_dir : List String) :
    Except String (List String) :=
  if !(fs.pathExists input_path) then .error ("Error: Path not found")
  else if (get_md_files fs input_path true).isEmpty then
    .error ("Error: No markdown files found")
  else .ok (output_dir ++ [deriveName fs input_path ++ "_v" ++ version ++ ".pdf"])

/-- Control-flow skeleton of `generate_epub` (lines 450-548), exactly as
`generate_pdf` but writing `<name>_v<version>.epub` (line 542). -/
def generate_epub (fs : FS) (version : String) (input_path output_dir : List String) :
    Except String (List String) :=
  if !(fs.pathExists input_path) then .error ("Error: Path not found")
  else if (get_md_files fs input_path true).isEmpty then
    .error ("Error: No markdown files found")
  else .ok (output_dir ++ [deriveName fs input_path ++ "_v" ++ version ++ ".epub"])

/-- Spec-side description of the replacement performed by
`re.sub(r"<([A-Z][^>]*)>", r"&lt;\1&gt;", part)`: the text starts with an
occurrence of `<`, an uppercase letter, a run of non-`>` characters and `>`. -/
def HasMatchAt (s : List Char) : Prop :=
  ∃ u mid rest, s = '<' :: u :: (mid ++ '>' :: rest) ∧ isUpperAZ u = true ∧
    ('>') ∉ u :: mid

/-- Spec-side relation: `AngleRepl s t` holds when `t` is `s` with every
left-to-right, non-overlapping substring of the form `<` + uppercase letter
+ non-`>` run + `>` replaced by `&lt;` + inner content verbatim + `&gt;`,
and nothing else changed. -/
inductive AngleRepl : List Char → List Char → Prop
  | nil : AngleRepl [] []
  | keep (c : Char) (l r : List Char) : ¬HasMatchAt (c :: l) → AngleRepl l r →
      AngleRepl (c :: l) (c :: r)
  | repl (u : Char) (mid rest r : List Char) : isUpperAZ u = true →
      ('>') ∉ u :: mid → AngleRepl rest r →
      AngleRepl ('<' :: u :: (mid ++ '>' :: rest))
        (ltEnt ++ (u :: mid) ++ gtEnt ++ r)

/-- Claim-side structural relation for fence-free input: the output line list
is the input line list with every line replaced by its escaped form and with
empty lines possibly inserted in between. -/
inductive InsEsc : List (List Char) → List (List Char) → Prop
  | nil : InsEsc [] []
  | esc (l : List Char) (ins outs : List (List Char)) : InsEsc ins outs →
      InsEsc (l :: ins) (escapeLine l :: outs)
  | blank (ins outs : List (List Char)) : InsEsc ins outs →
      InsEsc ins ([] :: outs)

/-- Claim-side structural relation for arbitrary input: the output line list
is the input line list with each line either kept verbatim or rewritten in
place by the angle-bracket escaping, and with empty lines possibly
inserted; lines are never reordered or deleted. -/
inductive InsRewrite : List (List Char) → List (List Char) → Prop
  | nil : InsRewrite [] []
  | keep (l : List Char) (ins outs : List (List Char)) : InsRewrite ins outs →
      InsRewrite (l :: ins) (l :: outs)
  | esc (l : List Char) (ins outs : List (List Char)) : InsRewrite ins outs →
      InsRewrite (l :: ins) (escapeLine l :: outs)
  | blank (ins outs : List (List Char)) : InsRewrite ins outs →
      InsRewrite ins ([] :: outs)

/-- The fenced-code flag of the loop of `preprocess_markdown` after
processing a list of lines, starting from a given flag. -/
def codeAfter : Bool → List (List Char) → Bool
  | c, [] => c
  | c, l :: rest => codeAfter (if isFenceLine l then !c else c) rest

/-- The last emitted output line of the loop of `preprocess_markdown` after
processing a list of lines, starting from a given flag and previous line. -/
def prevAfter : Bool → List Char → List (List Char) → List Char
  | _, p, [] => p
  | c, p, l :: rest =>
    if isFenceLine l then prevAfter (!c) l rest
    else if c then prevAfter c l rest
    else prevAfter c (escapeLine l) rest

/-- Witness input for C1: prose with a generic type, no backticks, no fences. -/
def exC1 : List Char := "The function returns Result<T, E> for errors.".toList

/-- Witness input for C2: a fenced code block between prose lines. -/
def exC2 : List Char :=
  "intro\n```rust\nlet x: Result<T, E> = f();\n```\nafter".toList

/-- Lines of `exC2` before its fenced region. -/
def exC2a : List (List Char) := ["intro".toList]

/-- Opening fence line of `exC2`. -/
def exC2f1 : List Char := "```rust".toList

/-- Body of the fenced region of `exC2`. -/
def exC2body : List (List Char) := ["let x: Result<T, E> = f();".toList]

/-- Closing fence line of `exC2`. -/
def exC2f2 : List Char := "```".toList

/-- Lines of `exC2` after its fenced region. -/
def exC2b : List (List Char) := ["after".toList]

/-- Witness prefix for C3: one plain text line. -/
def exC3a : List (List Char) := ["Some text".toList]

/-- Witness list line for C3. -/
def exC3l : List Char := "- item".toList

/-- Counterexample input for C4: nested angle pattern that re-escapes. -/
def exC4bad : List Char := "<A<B> x>".toList

/-- Witness input for the amended C4: a list after prose, no angle brackets. -/
def exC4good : List Char := "para\n- a\n- b".toList

/-- Witness prefix for C6: a bullet item line. -/
def exC6a : List (List Char) := ["- first".toList]

/-- Witness numbered line for C6. -/
def exC6l : List Char := "1. second".toList

/-- Witness input for C7: one unmatched fence marker. -/
def exC7 : List Char := "text\n```\n- x <T>".toList

/-- Lines of `exC7` before the unmatched fence. -/
def exC7a : List (List Char) := ["text".toList]

/-- The unmatched fence line of `exC7`. -/
def exC7f : List Char := "```".toList

/-- Lines of `exC7` after the unmatched fence. -/
def exC7b : List (List Char) := ["- x <T>".toList]

/-- Witness filesystem for C8: a docs tree with nested markdown files. -/
def fs8 : FS :=
  ⟨[["docs", "b.md"], ["docs", "a.md"], ["docs", "sub", "c.md"],
    ["docs", "x.txt"]], [["docs"], ["docs", "sub"]]⟩

/-- Witness filesystem for C9: one book directory with one chapter. -/
def fs9 : FS := ⟨[["book", "ch1.md"]], [["book"]]⟩

/-- Witness filesystem for C10, file case: an uppercase-extension file. -/
def fs10a : FS := ⟨[["README.MD"]], ([] : List (List String))⟩

/-- Witness filesystem for C10, directory case. -/
def fs10b : FS := ⟨[["d", "x.MD"]], [["d"]]⟩

/-- The head of a `dropWhile` result fails the predicate. -/
theorem dropWhile_head_false {α : Type} (p : α → Bool) :
    ∀ (l : List α) (x : α) (xs : List α), l.dropWhile p = x :: xs → p x = false := by
  intro l
  induction l with
  | nil => intro x xs h; simp at h
  | cons a t ih =>
    intro x xs h
    rw [List.dropWhile_cons] at h
    by_cases ha : p a = true
    · rw [if_pos ha] at h; exact ih x xs h
    · rw [if_neg ha] at h
      cases h
      simpa using ha

/-- Decomposition provided by a successful `takeSpan`: the text is the
nonempty backtick-free interior, the closing backtick, and the remainder. -/
theorem takeSpan_eq {rest inner after : List Char}
    (h : takeSpan rest = some (inner, after)) :
    rest = inner ++ '`' :: after ∧ inner ≠ [] ∧ ('`') ∉ inner := by
  unfold takeSpan at h
  cases hd : rest.dropWhile (fun c => c != '`') with
  | nil => rw [hd] at h; simp at h
  | cons x xs =>
    have hx : x = '`' := by
      have := dropWhile_head_false (fun c => c != '`') rest x xs hd
      simpa [bne_eq_false_iff_eq] using this
    subst hx
    rw [hd] at h
    simp only at h
    by_cases he : (rest.takeWhile (fun c => c != '`')).isEmpty = true
    · rw [if_pos he] at h; simp at h
    · rw [if_neg he] at h
      have hia : inner = rest.takeWhile (fun c => c != '`') ∧ after = xs := by
        cases h; exact ⟨rfl, rfl⟩
      obtain ⟨hi, ha⟩ := hia
      subst hi; subst ha
      refine ⟨?_, ?_, ?_⟩
      · conv_lhs => rw [← List.takeWhile_append_dropWhile (fun c => c != '`') rest]
        rw [hd]
      · intro hnil; rw [hnil] at he; simp at he
      · intro hmem
        have := List.mem_takeWhile_imp hmem
        simp at this

/-- Decomposition provided by a successful `angleSpan`: the text is the
captured group (nonempty, uppercase first, `>`-free), the first `>`, and
the remainder. -/
theorem angleSpan_eq {rest inner after : List Char}
    (h : angleSpan rest = some (inner, after)) :
    rest = inner ++ '>' :: after ∧ (∃ u t, inner = u :: t ∧ isUpperAZ u = true) ∧
      ('>') ∉ inner := by
  unfold angleSpan at h
  cases rest with
  | nil => simp at h
  | cons c tl =>
    simp only at h
    by_cases hu : isUpperAZ c = true
    · rw [if_pos hu] at h
      cases hd : (c :: tl).dropWhile (fun x => x != '>') with
      | nil => rw [hd] at h; simp at h
      | cons x xs =>
        have hx : x = '>' := by
          have := dropWhile_head_false (fun x => x != '>') (c :: tl) x xs hd
          simpa [bne_eq_false_iff_eq] using this
        subst hx
        rw [hd] at h
        simp only [Option.some.injEq, Prod.mk.injEq] at h
        obtain ⟨hi, ha⟩ := h
        subst hi; subst ha
        refine ⟨?_, ?_, ?_⟩
        · conv_lhs => rw [← List.takeWhile_append_dropWhile (fun x => x != '>') (c :: tl)]
          rw [hd]
        · refine ⟨c, (tl.takeWhile (fun x => x != '>')), ?_, hu⟩
          rw [List.takeWhile_cons, if_pos]
          have : c ≠ '>' := by
            intro hc; subst hc; simp [isUpperAZ] at hu
          simpa using this
        · intro hmem
          have := List.mem_takeWhile_imp hmem
          simp at this
    · rw [if_neg hu] at h; simp at h

/-- The parts produced by the backtick split concatenate back to the input
together with the pending segment; in particular the split loses no text. -/
theorem splitSpansF_flatten : ∀ (n : Nat) (cur l : List Char),
    (splitSpansF n cur l).flatten = cur.reverse ++ l := by
  intro n
  induction n with
  | zero => intro cur l; simp [splitSpansF]
  | succ n ih =>
    intro cur l
    cases l with
    | nil => simp [splitSpansF]
    | cons c rest =>
      by_cases hc : (c == '`') = true
      · cases hts : takeSpan rest with
        | none =>
          simp only [splitSpansF, hc, if_true, hts]
          rw [ih]
          simp
        | some pr =>
          obtain ⟨inner, after⟩ := pr
          obtain ⟨hdec, hne, hnm⟩ := takeSpan_eq hts
          simp only [splitSpansF, hc, if_true, hts]
          rw [List.flatten_cons, List.flatten_cons, ih]
          rw [beq_iff_eq] at hc
          subst hc
          rw [hdec]
          simp
      · simp only [splitSpansF, hc, if_false, Bool.false_eq_true]
        rw [ih]
        simp

/-- Every character of every part of the backtick split occurs in the line. -/
theorem splitSpans_mem {l p : List Char} (hp : p ∈ splitSpans l) {c : Char}
    (hc : c ∈ p) : c ∈ l := by
  have hmem : c ∈ (splitSpans l).flatten := List.mem_flatten.mpr ⟨p, hp, hc⟩
  rw [splitSpans, splitSpansF_flatten] at hmem
  simpa using hmem

/-- On a backtick-free line the split returns a single part. -/
theorem splitSpansF_no_tick : ∀ (n : Nat) (cur l : List Char), ('`') ∉ l →
    splitSpansF n cur l = [cur.reverse ++ l] := by
  intro n
  induction n with
  | zero => intro cur l _; simp [splitSpansF]
  | succ n ih =>
    intro cur l hl
    cases l with
    | nil => simp [splitSpansF]
    | cons c rest =>
      have hc : (c == '`') = false := by
        have : c ≠ '`' := fun h => hl (h ▸ List.mem_cons_self c rest)
        simpa using this
      simp only [splitSpansF, hc, if_false, Bool.false_eq_true]
      rw [ih (c :: cur) rest (fun h => hl (List.mem_cons_of_mem c h))]
      simp

/-- The angle substitution is the identity on segments without `<`. -/
theorem subAngleF_id : ∀ (n : Nat) (l : List Char), ('<') ∉ l →
    subAngleF n l = l := by
  intro n
  induction n with
  | zero => intro l _; cases l <;> simp [subAngleF]
  | succ n ih =>
    intro l hl
    cases l with
    | nil => simp [subAngleF]
    | cons c rest =>
      have hc : (c == '<') = false := by
        have : c ≠ '<' := fun h => hl (h ▸ List.mem_cons_self c rest)
        simpa using this
      simp only [subAngleF, hc, if_false, Bool.false_eq_true]
      rw [ih rest (fun h => hl (List.mem_cons_of_mem c h))]

/-- Characters produced by the angle substitution come from the input or
from the two replacement entities. -/
theorem subAngleF_mem : ∀ (n : Nat) (l : List Char) (c : Char),
    c ∈ subAngleF n l → c ∈ l ∨ c ∈ ltEnt ∨ c ∈ gtEnt := by
  intro n
  induction n with
  | zero =>
    intro l c hc
    cases l with
    | nil => simp [subAngleF] at hc
    | cons a rest => exact Or.inl (by simpa [subAngleF] using hc)
  | succ n ih =>
    intro l c hc
    cases l with
    | nil => simp [subAngleF] at hc
    | cons a rest =>
      by_cases ha : (a == '<') = true
      · cases has : angleSpan rest with
        | none =>
          simp only [subAngleF, ha, if_true, has] at hc
          rcases List.mem_cons.mp hc with h | h
          · exact Or.inl (h ▸ List.mem_cons_self a rest)
          · rcases ih rest c h with h2 | h2
            · exact Or.inl (List.mem_cons_of_mem a h2)
            · exact Or.inr h2
        | some pr =>
          obtain ⟨inner, after⟩ := pr
          obtain ⟨hdec, _, _⟩ := angleSpan_eq has
          simp only [subAngleF, ha, if_true, has] at hc
          rcases List.mem_append.mp hc with h | h
          · rcases List.mem_append.mp h with h2 | h2
            · rcases List.mem_append.mp h2 with h3 | h3
              · exact Or.inr (Or.inl h3)
              · refine Or.inl (List.mem_cons_of_mem a ?_)
                rw [hdec]
                exact List.mem_append.mpr (Or.inl h3)
            · exact Or.inr (Or.inr h2)
          · rcases ih after c h with h2 | h2
            · refine Or.inl (List.mem_cons_of_mem a ?_)
              rw [hdec]
              exact List.mem_append.mpr (Or.inr (List.mem_cons_of_mem _ h2))
            · exact Or.inr h2
      · simp only [subAngleF, ha, if_false, Bool.false_eq_true] at hc
        rcases List.mem_cons.mp hc with h | h
        · exact Or.inl (h ▸ List.mem_cons_self a rest)
        · rcases ih rest c h with h2 | h2
          · exact Or.inl (List.mem_cons_of_mem a h2)
          · exact Or.inr h2

/-- A failed `angleSpan` means no regex match starts at this `<`. -/
theorem angleSpan_none_not_match {rest : List Char} (h : angleSpan rest = none) :
    ¬HasMatchAt ('<' :: rest) := by
  rintro ⟨u, mid, rest', heq, hu, hnm⟩
  have hrest : rest = u :: (mid ++ '>' :: rest') := by
    injection heq
  subst hrest
  unfold angleSpan at h
  simp only at h
  rw [if_pos hu] at h
  have hall : ∀ x ∈ u :: mid, (fun x => x != '>') x = true := by
    intro x hx
    have : x ≠ '>' := fun hx2 => hnm (hx2 ▸ hx)
    simpa using this
  have hdw : (u :: (mid ++ '>' :: rest')).dropWhile (fun x => x != '>') =
      '>' :: rest' := by
    have hshape : u :: (mid ++ '>' :: rest') = (u :: mid) ++ '>' :: rest' := by simp
    rw [hshape, List.dropWhile_append]
    rw [List.dropWhile_eq_nil_iff.mpr hall]
    simp [List.dropWhile_cons]
  rw [hdw] at h
  simp at h

/-- No regex match starts at a character other than `<`. -/
theorem not_match_of_ne {c : Char} (l : List Char) (hc : c ≠ '<') :
    ¬HasMatchAt (c :: l) := by
  rintro ⟨u, mid, rest', heq, _, _⟩
  rw [List.cons.injEq] at heq
  exact hc heq.1

/-- The angle substitution realizes the spec-side replacement relation:
left-to-right, every qualifying bracketed group is entity-escaped with its
interior kept verbatim, and all other characters pass through. -/
theorem angleRepl_subAngleF : ∀ (n : Nat) (l : List Char), l.length ≤ n →
    AngleRepl l (subAngleF n l) := by
  intro n
  induction n with
  | zero =>
    intro l hl
    have : l = [] := List.length_eq_zero.mp (Nat.le_zero.mp hl)
    subst this
    exact AngleRepl.nil
  | succ n ih =>
    intro l hl
    cases l with
    | nil => exact AngleRepl.nil
    | cons c rest =>
      have hlen : rest.length ≤ n := by
        simpa using Nat.le_of_succ_le_succ (by simpa using hl)
      by_cases hc : (c == '<') = true
      · rw [beq_iff_eq] at hc
        subst hc
        cases has : angleSpan rest with
        | none =>
          simp only [subAngleF, beq_self_eq_true, if_true, has]
          exact AngleRepl.keep '<' rest _ (angleSpan_none_not_match has)
            (ih rest hlen)
        | some pr =>
          obtain ⟨inner, after⟩ := pr
          obtain ⟨hdec, ⟨u, t, hinner, hu⟩, hnm⟩ := angleSpan_eq has
          simp only [subAngleF, beq_self_eq_true, if_true, has]
          have hafter : after.length ≤ n := by
            have h1 : rest.length = inner.length + (after.length + 1) := by
              rw [hdec]; simp [List.length_append]
            have h2 : inner.length ≥ 1 := by
              rw [hinner]; simp
            omega
          have hrepl := AngleRepl.repl u t after (subAngleF n after) hu
            (by rw [← hinner]; exact hnm) (ih after hafter)
          have hshape : '<' :: rest = '<' :: u :: (t ++ '>' :: after) := by
            rw [hdec, hinner]; simp
          rw [hshape, hinner]
          simpa [List.append_assoc] using hrepl
      · have hne : c ≠ '<' := by simpa using hc
        simp only [subAngleF, hc, if_false, Bool.false_eq_true]
        exact AngleRepl.keep c rest _ (not_match_of_ne rest hne) (ih rest hlen)

/-- The angle substitution at its standard fuel realizes the replacement. -/
theorem angleRepl_subAngle (l : List Char) : AngleRepl l (subAngle l) :=
  angleRepl_subAngleF l.length l (Nat.le_refl _)

/-- A generic helper: a map that fixes every element of a list is the
identity on that list. -/
theorem map_id_of_mem {α : Type} {f : α → α} :
    ∀ (l : List α), (∀ a ∈ l, f a = a) → l.map f = l := by
  intro l
  induction l with
  | nil => intro _; rfl
  | cons a t ih =>
    intro h
    rw [List.map_cons, h a (List.mem_cons_self a t),
      ih (fun b hb => h b (List.mem_cons_of_mem a hb))]

/-- A backtick-free segment never looks like a kept code span. -/
theorem startsEndsTick_no_tick {l : List Char} (h : ('`') ∉ l) :
    startsEndsTick l = false := by
  cases l with
  | nil => rfl
  | cons c t =>
    have hc : (c == '`') = false := by
      have : c ≠ '`' := fun hh => h (hh ▸ List.mem_cons_self c t)
      simpa using this
    unfold startsEndsTick
    cases hgl : (c :: t).getLast? with
    | none => simp [List.head?_cons, hgl]
    | some d => simp [List.head?_cons, hgl, hc]

/-- On a backtick-free line the per-line escaping is exactly the angle
substitution applied to the whole line. -/
theorem escapeLine_no_tick {l : List Char} (h : ('`') ∉ l) :
    escapeLine l = subAngle l := by
  unfold escapeLine
  rw [splitSpans, splitSpansF_no_tick l.length [] l h]
  simp [processPart, startsEndsTick_no_tick h]

/-- Characters of an escaped line come from the line or the two entities. -/
theorem escapeLine_mem {l : List Char} {c : Char} (hc : c ∈ escapeLine l) :
    c ∈ l ∨ c ∈ ltEnt ∨ c ∈ gtEnt := by
  unfold escapeLine at hc
  obtain ⟨q, hq, hcq⟩ := List.mem_flatten.mp hc
  obtain ⟨p, hp, rfl⟩ := List.mem_map.mp hq
  unfold processPart at hcq
  by_cases ht : startsEndsTick p = true
  · rw [if_pos ht] at hcq
    exact Or.inl (splitSpans_mem hp hcq)
  · rw [if_neg ht] at hcq
    rcases subAngleF_mem p.length p c hcq with h1 | h1
    · exact Or.inl (splitSpans_mem hp h1)
    · exact Or.inr h1

/-- The per-line escaping fixes lines without `<`. -/
theorem escapeLine_id {l : List Char} (h : ('<') ∉ l) : escapeLine l = l := by
  unfold escapeLine
  have hpp : ∀ p ∈ splitSpans l, processPart p = p := by
    intro p hp
    unfold processPart
    by_cases ht : startsEndsTick p = true
    · rw [if_pos ht]
    · rw [if_neg ht]
      exact subAngleF_id p.length p (fun hc => h (splitSpans_mem hp hc))
  rw [map_id_of_mem (splitSpans l) hpp, splitSpans, splitSpansF_flatten]
  rfl

/-- The empty line is fixed by the per-line escaping. -/
theorem escapeLine_nil : escapeLine [] = [] := by decide

/-- The loop of `preprocess_markdown` distributes over list append, with the
state after the first half threaded into the second half. -/
theorem ppLoop_append : ∀ (xs ys : List (List Char)) (c : Bool) (p : List Char),
    ppLoop c p (xs ++ ys) =
      ppLoop c p xs ++ ppLoop (codeAfter c xs) (prevAfter c p xs) ys := by
  intro xs
  induction xs with
  | nil => intro ys c p; rfl
  | cons l rest ih =>
    intro ys c p
    by_cases hf : isFenceLine l = true
    · simp only [List.cons_append, List.append_eq, ppLoop, hf, if_true,
        codeAfter, prevAfter]
      rw [ih]
    · cases c with
      | true =>
        simp only [List.cons_append, List.append_eq, ppLoop, hf, if_false,
          Bool.false_eq_true, if_true, codeAfter, prevAfter]
        rw [ih]
      | false =>
        by_cases hnb : needsBlank (escapeLine l) p = true
        · simp only [List.cons_append, List.append_eq, ppLoop, hf, hnb, if_false,
            if_true, Bool.false_eq_true, codeAfter, prevAfter]
          rw [ih]
        · simp only [List.cons_append, List.append_eq, ppLoop, hf, hnb, if_false,
            Bool.false_eq_true, codeAfter, prevAfter]
          rw [ih]

/-- The last output line of the loop is the threaded previous line. -/
theorem ppLoop_getLastD : ∀ (xs : List (List Char)) (c : Bool) (p : List Char),
    (ppLoop c p xs).getLastD p = prevAfter c p xs := by
  intro xs
  induction xs with
  | nil => intro c p; rfl
  | cons l rest ih =>
    intro c p
    by_cases hf : isFenceLine l = true
    · simp only [ppLoop, hf, if_true, prevAfter, List.getLastD_cons]
      exact ih (!c) l
    · cases c with
      | true =>
        simp only [ppLoop, hf, if_false, Bool.false_eq_true, if_true, prevAfter,
          List.getLastD_cons]
        exact ih true l
      | false =>
        by_cases hnb : needsBlank (escapeLine l) p = true
        · simp only [ppLoop, hf, hnb, if_false, if_true, Bool.false_eq_true,
            prevAfter, List.getLastD_cons]
          exact ih false (escapeLine l)
        · simp only [ppLoop, hf, hnb, if_false, Bool.false_eq_true, prevAfter,
            List.getLastD_cons]
          exact ih false (escapeLine l)

/-- Inside a fenced block every fence-free line is emitted verbatim. -/
theorem ppLoop_raw : ∀ (xs : List (List Char)) (p : List Char),
    (∀ l ∈ xs, isFenceLine l = false) → ppLoop true p xs = xs := by
  intro xs
  induction xs with
  | nil => intro p _; rfl
  | cons l rest ih =>
    intro p h
    have hf : isFenceLine l = false := h l (List.mem_cons_self l rest)
    simp only [ppLoop, hf, if_false, Bool.false_eq_true, if_true]
    rw [ih l (fun x hx => h x (List.mem_cons_of_mem l hx))]

/-- The fenced-code flag is unchanged over fence-free lines. -/
theorem codeAfter_no_fence : ∀ (xs : List (List Char)) (c : Bool),
    (∀ l ∈ xs, isFenceLine l = false) → codeAfter c xs = c := by
  intro xs
  induction xs with
  | nil => intro c _; rfl
  | cons l rest ih =>
    intro c h
    have hf : isFenceLine l = false := h l (List.mem_cons_self l rest)
    simp only [codeAfter, hf, if_false, Bool.false_eq_true]
    exact ih c (fun x hx => h x (List.mem_cons_of_mem l hx))

/-- The loop never produces an empty output from a nonempty input. -/
theorem ppLoop_ne_nil : ∀ (xs : List (List Char)) (c : Bool) (p : List Char),
    xs ≠ [] → ppLoop c p xs ≠ [] := by
  intro xs c p hne
  cases xs with
  | nil => exact absurd rfl hne
  | cons l rest =>
    by_cases hf : isFenceLine l = true
    · simp [ppLoop, hf]
    · cases c with
      | true => simp [ppLoop, hf]
      | false =>
        by_cases hnb : needsBlank (escapeLine l) p = true
        · simp [ppLoop, hf, hnb]
        · simp [ppLoop, hf, hnb]

/-- Every output line of the loop is an inserted empty line, an input line
kept verbatim, or the escaped form of an input line. -/
theorem ppLoop_mem : ∀ (xs : List (List Char)) (c : Bool) (p x : List Char),
    x ∈ ppLoop c p xs → x = [] ∨ x ∈ xs ∨ ∃ l ∈ xs, x = escapeLine l := by
  intro xs
  induction xs with
  | nil => intro c p x hx; simp [ppLoop] at hx
  | cons l rest ih =>
    intro c p x hx
    have step : ∀ (c2 : Bool) (p2 : List Char), x ∈ ppLoop c2 p2 rest →
        x = [] ∨ x ∈ l :: rest ∨ ∃ m ∈ l :: rest, x = escapeLine m := by
      intro c2 p2 hmem
      rcases ih c2 p2 x hmem with h | h | ⟨m, hm, hx2⟩
      · exact Or.inl h
      · exact Or.inr (Or.inl (List.mem_cons_of_mem l h))
      · exact Or.inr (Or.inr ⟨m, List.mem_cons_of_mem l hm, hx2⟩)
    by_cases hf : isFenceLine l = true
    · simp only [ppLoop, hf, if_true] at hx
      rcases List.mem_cons.mp hx with h | h
      · exact Or.inr (Or.inl (h ▸ List.mem_cons_self l rest))
      · exact step (!c) l h
    · cases c with
      | true =>
        simp only [ppLoop, hf, if_false, Bool.false_eq_true, if_true] at hx
        rcases List.mem_cons.mp hx with h | h
        · exact Or.inr (Or.inl (h ▸ List.mem_cons_self l rest))
        · exact step true l h
      | false =>
        by_cases hnb : needsBlank (escapeLine l) p = true
        · simp only [ppLoop, hf, hnb, if_false, if_true, Bool.false_eq_true] at hx
          rcases List.mem_cons.mp hx with h | h
          · exact Or.inl h
          rcases List.mem_cons.mp h with h2 | h2
          · exact Or.inr (Or.inr ⟨l, List.mem_cons_self l rest, h2⟩)
          · exact step false (escapeLine l) h2
        · simp only [ppLoop, hf, hnb, if_false, Bool.false_eq_true] at hx
          rcases List.mem_cons.mp hx with h | h
          · exact Or.inr (Or.inr ⟨l, List.mem_cons_self l rest, h⟩)
          · exact step false (escapeLine l) h

/-- The loop never shrinks the number of lines. -/
theorem ppLoop_length : ∀ (xs : List (List Char)) (c : Bool) (p : List Char),
    xs.length ≤ (ppLoop c p xs).length := by
  intro xs
  induction xs with
  | nil => intro c p; simp [ppLoop]
  | cons l rest ih =>
    intro c p
    by_cases hf : isFenceLine l = true
    · simpa [ppLoop, hf] using ih (!c) l
    · cases c with
      | true => simpa [ppLoop, hf] using ih true l
      | false =>
        by_cases hnb : needsBlank (escapeLine l) p = true
        · have := ih false (escapeLine l)
          simp only [ppLoop, hf, hnb, if_false, if_true, Bool.false_eq_true]
          simp only [List.length_cons]
          omega
        · simpa [ppLoop, hf, hnb] using ih false (escapeLine l)

/-- Splitting on newlines never yields an empty list of lines. -/
theorem splitLines_ne_nil : ∀ (s : List Char), splitLines s ≠ [] := by
  intro s
  cases s with
  | nil => simp [splitLines]
  | cons c rest =>
    by_cases hc : c = '\n'
    · simp [splitLines, hc]
    · simp only [splitLines, hc, if_false]
      cases h : splitLines rest with
      | nil => simp
      | cons l ls => simp

/-- No produced line contains a newline. -/
theorem splitLines_no_nl : ∀ (s : List Char), ∀ l ∈ splitLines s, ('\n') ∉ l := by
  intro s
  induction s with
  | nil => intro l hl; simp [splitLines] at hl; simp [hl]
  | cons c rest ih =>
    intro l hl
    by_cases hc : c = '\n'
    · simp only [splitLines, hc, if_true] at hl
      rcases List.mem_cons.mp hl with h | h
      · simp [h]
      · exact ih l h
    · simp only [splitLines, hc, if_false] at hl
      cases hs : splitLines rest with
      | nil => exact absurd hs (splitLines_ne_nil rest)
      | cons l0 ls0 =>
        rw [hs] at hl
        rcases List.mem_cons.mp hl with h | h
        · subst h
          intro hmem
          rcases List.mem_cons.mp hmem with h2 | h2
          · exact hc h2.symm
          · exact ih l0 (hs ▸ List.mem_cons_self l0 ls0) h2
        · exact ih l (hs ▸ List.mem_cons_of_mem l0 h)

/-- Every character of every produced line occurs in the input text. -/
theorem splitLines_chars : ∀ (s l : List Char), l ∈ splitLines s →
    ∀ c ∈ l, c ∈ s := by
  intro s
  induction s with
  | nil => intro l hl c hc; simp [splitLines] at hl; rw [hl] at hc; simp at hc
  | cons a rest ih =>
    intro l hl c hc
    by_cases ha : a = '\n'
    · simp only [splitLines, ha, if_true] at hl
      rcases List.mem_cons.mp hl with h | h
      · rw [h] at hc; simp at hc
      · exact List.mem_cons_of_mem a (ih l h c hc)
    · simp only [splitLines, ha, if_false] at hl
      cases hs : splitLines rest with
      | nil => exact absurd hs (splitLines_ne_nil rest)
      | cons l0 ls0 =>
        rw [hs] at hl
        rcases List.mem_cons.mp hl with h | h
        · subst h
          rcases List.mem_cons.mp hc with h2 | h2
          · exact h2 ▸ List.mem_cons_self a rest
          · exact List.mem_cons_of_mem a
              (ih l0 (hs ▸ List.mem_cons_self l0 ls0) c h2)
        · exact List.mem_cons_of_mem a (ih l (hs ▸ List.mem_cons_of_mem l0 h) c hc)

/-- A newline-free text splits into itself as a single line. -/
theorem splitLines_self : ∀ (l : List Char), ('\n') ∉ l → splitLines l = [l] := by
  intro l
  induction l with
  | nil => intro _; rfl
  | cons c rest ih =>
    intro h
    have hc : c ≠ '\n' := fun hh => h (hh ▸ List.mem_cons_self c rest)
    simp only [splitLines, hc, if_false]
    rw [ih (fun hh => h (List.mem_cons_of_mem c hh))]

/-- Splitting distributes over a newline-free prefix followed by a newline. -/
theorem splitLines_append_nl : ∀ (l t : List Char), ('\n') ∉ l →
    splitLines (l ++ '\n' :: t) = l :: splitLines t := by
  intro l
  induction l with
  | nil => intro t _; simp [splitLines]
  | cons c rest ih =>
    intro t h
    have hc : c ≠ '\n' := fun hh => h (hh ▸ List.mem_cons_self c rest)
    simp only [List.cons_append, List.append_eq, splitLines, hc, if_false]
    rw [ih t (fun hh => h (List.mem_cons_of_mem c hh))]

/-- Joining then splitting newline-free lines is the identity. -/
theorem splitLines_joinLines : ∀ (out : List (List Char)), out ≠ [] →
    (∀ l ∈ out, ('\n') ∉ l) → splitLines (joinLines out) = out := by
  intro out
  induction out with
  | nil => intro hne _; exact absurd rfl hne
  | cons l rest ih =>
    intro _ h
    cases rest with
    | nil =>
      show splitLines (joinLines [l]) = [l]
      exact splitLines_self l (h l (List.mem_cons_self l []))
    | cons l2 rest2 =>
      show splitLines (l ++ '\n' :: joinLines (l2 :: rest2)) = l :: l2 :: rest2
      rw [splitLines_append_nl l _ (h l (List.mem_cons_self l _))]
      rw [ih (by simp) (fun x hx => h x (List.mem_cons_of_mem l hx))]

/-- Splitting the output of `preprocess_markdown` recovers exactly the lines
emitted by its loop. -/
theorem splitLines_preprocess (s : List Char) :
    splitLines (preprocess_markdown s) = processLines (splitLines s) := by
  unfold preprocess_markdown
  apply splitLines_joinLines
  · exact ppLoop_ne_nil (splitLines s) false [] (splitLines_ne_nil s)
  · intro l hl
    rcases ppLoop_mem (splitLines s) false [] l hl with h | h | ⟨m, hm, rfl⟩
    · simp [h]
    · exact splitLines_no_nl s l h
    · intro hc
      rcases escapeLine_mem hc with h2 | h2 | h2
      · exact splitLines_no_nl s m hm h2
      · simp [ltEnt] at h2
      · simp [gtEnt] at h2

/-- The fenced-code flag after a list of lines is the parity of the number of
fence-marker lines seen, combined with the starting flag. -/
theorem codeAfter_parity : ∀ (xs : List (List Char)) (c : Bool),
    codeAfter c xs =
      ((xs.countP (fun l => isFenceLine l) % 2 == 1) != c) := by
  intro xs
  induction xs with
  | nil => intro c; cases c <;> simp [codeAfter]
  | cons l rest ih =>
    intro c
    by_cases hf : isFenceLine l = true
    · simp only [codeAfter, hf, if_true]
      rw [ih (!c), List.countP_cons]
      have hpar : ((rest.countP (fun l => isFenceLine l) + 1) % 2 == 1) =
          !(rest.countP (fun l => isFenceLine l) % 2 == 1) := by
        rcases Nat.mod_two_eq_zero_or_one (rest.countP (fun l => isFenceLine l))
          with h | h
        · have h1 : (rest.countP (fun l => isFenceLine l) + 1) % 2 = 1 := by omega
          rw [h, h1]; rfl
        · have h1 : (rest.countP (fun l => isFenceLine l) + 1) % 2 = 0 := by omega
          rw [h, h1]; rfl
      rw [hf]
      simp only [if_true]
      rw [hpar]
      cases c <;> cases h2 : (rest.countP (fun l => isFenceLine l) % 2 == 1) <;> rfl
    · simp only [codeAfter, hf, if_false, Bool.false_eq_true]
      rw [ih c, List.countP_cons]
      simp [hf]

/-- The loop realizes `InsEsc` on fence-free input. -/
theorem insEsc_ppLoop : ∀ (ls : List (List Char)) (p : List Char),
    (∀ l ∈ ls, isFenceLine l = false) → InsEsc ls (ppLoop false p ls) := by
  intro ls
  induction ls with
  | nil => intro p _; exact InsEsc.nil
  | cons l rest ih =>
    intro p h
    have hf : isFenceLine l = false := h l (List.mem_cons_self l rest)
    have hrest : ∀ x ∈ rest, isFenceLine x = false :=
      fun x hx => h x (List.mem_cons_of_mem l hx)
    by_cases hnb : needsBlank (escapeLine l) p = true
    · simp only [ppLoop, hf, hnb, if_false, if_true, Bool.false_eq_true]
      exact InsEsc.blank _ _ (InsEsc.esc l _ _ (ih (escapeLine l) hrest))
    · simp only [ppLoop, hf, hnb, if_false, Bool.false_eq_true]
      exact InsEsc.esc l _ _ (ih (escapeLine l) hrest)

/-- The loop realizes `InsRewrite` on arbitrary input. -/
theorem insRewrite_ppLoop : ∀ (ls : List (List Char)) (c : Bool) (p : List Char),
    InsRewrite ls (ppLoop c p ls) := by
  intro ls
  induction ls with
  | nil => intro c p; exact InsRewrite.nil
  | cons l rest ih =>
    intro c p
    by_cases hf : isFenceLine l = true
    · simp only [ppLoop, hf, if_true]
      exact InsRewrite.keep l _ _ (ih (!c) l)
    · cases c with
      | true =>
        simp only [ppLoop, hf, if_false, Bool.false_eq_true, if_true]
        exact InsRewrite.keep l _ _ (ih true l)
      | false =>
        by_cases hnb : needsBlank (escapeLine l) p = true
        · simp only [ppLoop, hf, hnb, if_false, if_true, Bool.false_eq_true]
          exact InsRewrite.blank _ _ (InsRewrite.esc l _ _ (ih false (escapeLine l)))
        · simp only [ppLoop, hf, hnb, if_false, Bool.false_eq_true]
          exact InsRewrite.esc l _ _ (ih false (escapeLine l))

/-- Re-running the loop on its own output changes nothing when the per-line
escaping fixes every input line. -/
theorem ppLoop_idem : ∀ (ls : List (List Char)),
    (∀ l ∈ ls, escapeLine l = l) → ∀ (c : Bool) (p : List Char),
    ppLoop c p (ppLoop c p ls) = ppLoop c p ls := by
  intro ls
  induction ls with
  | nil => intro _ c p; rfl
  | cons l rest ih =>
    intro h c p
    have hl : escapeLine l = l := h l (List.mem_cons_self l rest)
    have hrest : ∀ x ∈ rest, escapeLine x = x :=
      fun x hx => h x (List.mem_cons_of_mem l hx)
    by_cases hf : isFenceLine l = true
    · simp only [ppLoop, hf, if_true]
      rw [ih hrest (!c) l]
    · cases c with
      | true =>
        simp only [ppLoop, hf, if_false, Bool.false_eq_true, if_true]
        rw [ih hrest true l]
      | false =>
        have hokp : okPrev ([] : List Char) = false := rfl
        by_cases hnb : needsBlank (escapeLine l) p = true
        · simp only [ppLoop, hf, hnb, if_false, if_true, Bool.false_eq_true]
          have hfb : isFenceLine ([] : List Char) = false := by decide
          have hnb2 : needsBlank ([] : List Char) p = false := rfl
          have hnb3 : needsBlank l ([] : List Char) = false := by
            simp [needsBlank, hokp]
          simp only [ppLoop, hl, hfb, hf, escapeLine_nil, hnb2, hnb3, if_false,
            Bool.false_eq_true]
          rw [ih hrest false l]
        · have hnbf : needsBlank l p = false := by
            rw [← hl]
            simpa using hnb
          simp only [ppLoop, hf, hnb, if_false, Bool.false_eq_true]
          simp only [ppLoop, hl, hf, hnbf, if_false, Bool.false_eq_true]
          rw [ih hrest false l]

/-- The lexicographic path comparison is total. -/
theorem charListLe_total : ∀ (a b : List Char),
    charListLe a b = true ∨ charListLe b a = true := by
  intro a
  induction a with
  | nil => intro b; exact Or.inl rfl
  | cons x xs ih =>
    intro b
    cases b with
    | nil => exact Or.inr rfl
    | cons y ys =>
      by_cases hxy : (x == y) = true
      · have hyx : (y == x) = true := by
          rw [beq_iff_eq] at hxy ⊢
          exact hxy.symm
        rcases ih ys with h | h
        · exact Or.inl (by simp [charListLe, hxy, h])
        · exact Or.inr (by simp [charListLe, hyx, h])
      · have hne : x ≠ y := by simpa using hxy
        have hyx : (y == x) = false := by simpa using (Ne.symm hne)
        have hxy2 : (x == y) = false := by simpa using hne
        rcases lt_or_gt_of_ne hne with h | h
        · exact Or.inl (by simp [charListLe, hxy2, h])
        · exact Or.inr (by simp [charListLe, hyx, h])

/-- The lexicographic path comparison is transitive. -/
theorem charListLe_trans : ∀ (a b c : List Char), charListLe a b = true →
    charListLe b c = true → charListLe a c = true := by
  intro a
  induction a with
  | nil => intro b c _ _; rfl
  | cons x xs ih =>
    intro b c hab hbc
    cases b with
    | nil => simp [charListLe] at hab
    | cons y ys =>
      cases c with
      | nil => simp [charListLe] at hbc
      | cons z zs =>
        by_cases hxy : (x == y) = true
        · rw [beq_iff_eq] at hxy
          subst hxy
          by_cases hxz : (x == z) = true
          · rw [beq_iff_eq] at hxz
            subst hxz
            simp only [charListLe, beq_self_eq_true, if_true] at hab hbc ⊢
            exact ih ys zs hab hbc
          · simp only [charListLe, beq_self_eq_true, if_true, hxz, if_false,
              Bool.false_eq_true] at hab hbc ⊢
            exact hbc
        · have hxy2 : (x == y) = false := by simpa using hxy
          simp only [charListLe, hxy2, if_false, Bool.false_eq_true,
            decide_eq_true_eq] at hab
          by_cases hyz : (y == z) = true
          · rw [beq_iff_eq] at hyz
            subst hyz
            simp only [charListLe, hxy2, if_false, Bool.false_eq_true,
              decide_eq_true_eq]
            exact hab
          · have hyz2 : (y == z) = false := by simpa using hyz
            simp only [charListLe, hyz2, if_false, Bool.false_eq_true,
              decide_eq_true_eq] at hbc
            have hxz : x < z := lt_trans hab hbc
            have hxz2 : (x == z) = false := by simpa using (ne_of_lt hxz)
            simp only [charListLe, hxz2, if_false, Bool.false_eq_true,
              decide_eq_true_eq]
            exact hxz

/-- C1: on input containing no fence-marker lines and no backtick
characters, `preprocess_markdown` rewrites each line by replacing every
left-to-right occurrence of `<` + uppercase letter + non-`>` run + `>` with
`&lt;` + inner content verbatim + `&gt;` (the relation `AngleRepl`), only
inserting blank lines otherwise; and on any input line, a split segment
that is exactly a single-backtick-delimited span (backtick, one or more
non-backtick characters, backtick) passes through the escaping verbatim. -/
theorem c1_angle_escape_outside_code (s : List Char) (hbt : ('`') ∉ s)
    (hfence : ∀ l ∈ splitLines s, isFenceLine l = false) :
    InsEsc (splitLines s) (splitLines (preprocess_markdown s)) ∧
    (∀ l ∈ splitLines s, escapeLine l = subAngle l ∧ AngleRepl l (subAngle l)) ∧
    (∀ (l q m : List Char) (a b : List (List Char)),
      splitSpans l = a ++ q :: b → q = '`' :: (m ++ ['`']) → m ≠ [] →
      ('`') ∉ m →
      escapeLine l = (a.map processPart).flatten ++ q ++
        (b.map processPart).flatten) := by
  refine ⟨?_, ?_, ?_⟩
  · rw [splitLines_preprocess]
    exact insEsc_ppLoop (splitLines s) [] hfence
  · intro l hl
    have hbl : ('`') ∉ l := fun hc => hbt (splitLines_chars s l hl '`' hc)
    exact ⟨escapeLine_no_tick hbl, angleRepl_subAngle l⟩
  · intro l q m a b hsplit hq _ _
    have hqt : processPart q = q := by
      subst hq
      unfold processPart
      have h1 : startsEndsTick ('`' :: (m ++ ['`'])) = true := by
        unfold startsEndsTick
        have h2 : ('`' :: (m ++ ['`'])).getLast? = some '`' := by
          rw [show ('`' :: (m ++ ['`'])) = ('`' :: m) ++ ['`'] by simp]
          exact List.getLast?_concat _
        rw [List.head?_cons, h2]
        simp
      rw [if_pos h1]
    unfold escapeLine
    rw [hsplit, List.map_append, List.map_cons, List.flatten_append,
      List.flatten_cons, hqt]
    simp [List.append_assoc]

/-- Witness for C1 on a concrete fence-free, backtick-free input. -/
theorem c1_witness :
    ('`') ∉ exC1 ∧ (∀ l ∈ splitLines exC1, isFenceLine l = false) ∧
      InsEsc (splitLines exC1) (splitLines (preprocess_markdown exC1)) :=
  ⟨by decide, by decide,
    (c1_angle_escape_outside_code exC1 (by decide) (by decide)).1⟩

/-- C4 counterexample: the input has no unpaired backtick count on any line
(it has no backticks at all), yet applying `preprocess_markdown` twice
differs from applying it once, because the first pass leaves text in which
a fresh `<Upper...>` match appears. -/
theorem c4_counterexample :
    (∀ l ∈ splitLines exC4bad, l.count ('`') % 2 = 0) ∧
      preprocess_markdown (preprocess_markdown exC4bad) ≠
        preprocess_markdown exC4bad :=
  ⟨by decide, by decide⟩

/-- C4 (amended): `preprocess_markdown` is idempotent on every input in
which no line has an ambiguous (unpaired) backtick count and which contains
no `<` character. -/
theorem c4_idempotent_no_lt (s : List Char)
    (hbt : ∀ l ∈ splitLines s, l.count ('`') % 2 = 0)
    (hlt : ('<') ∉ s) :
    preprocess_markdown (preprocess_markdown s) = preprocess_markdown s := by
  have hesc : ∀ l ∈ splitLines s, escapeLine l = l := fun l hl =>
    escapeLine_id (fun hc => hlt (splitLines_chars s l hl '<' hc))
  show joinLines (processLines (splitLines (preprocess_markdown s))) =
    preprocess_markdown s
  rw [splitLines_preprocess]
  show joinLines (ppLoop false [] (ppLoop false [] (splitLines s))) =
    preprocess_markdown s
  rw [ppLoop_idem (splitLines s) hesc false []]
  rfl

/-- Witness for the amended C4 on a concrete bracket-free input. -/
theorem c4_witness :
    (∀ l ∈ splitLines exC4good, l.count ('`') % 2 = 0) ∧ ('<') ∉ exC4good ∧
      preprocess_markdown (preprocess_markdown exC4good) =
        preprocess_markdown exC4good :=
  ⟨by decide, by decide, c4_idempotent_no_lt exC4good (by decide) (by decide)⟩

/-- C5: for every input, the output lines of `preprocess_markdown` are the
input lines, each kept or rewritten in place by the angle-bracket escaping,
with empty lines possibly inserted and nothing reordered or deleted
(`InsRewrite`), and the line count never shrinks. -/
theorem c5_lines_preserved (s : List Char) :
    InsRewrite (splitLines s) (splitLines (preprocess_markdown s)) ∧
      (splitLines s).length ≤ (splitLines (preprocess_markdown s)).length := by
  rw [splitLines_preprocess]
  exact ⟨insRewrite_ppLoop (splitLines s) false [],
    ppLoop_length (splitLines s) false []⟩

/-- C2: every line of a matched fenced region (its two fence-marker
delimiter lines included) is emitted byte-for-byte unchanged by
`preprocess_markdown`, with no escaping applied and no blank line inserted
anywhere in the region. -/
theorem c2_fenced_region_verbatim (s : List Char) (a body b : List (List Char))
    (f1 f2 : List Char)
    (hs : splitLines s = a ++ f1 :: (body ++ f2 :: b))
    (hcode : codeAfter false a = false)
    (hf1 : isFenceLine f1 = true) (hf2 : isFenceLine f2 = true)
    (hbody : ∀ l ∈ body, isFenceLine l = false) :
    splitLines (preprocess_markdown s) =
      processLines a ++ f1 :: (body ++ f2 :: ppLoop false f2 b) := by
  rw [splitLines_preprocess, hs]
  unfold processLines
  rw [ppLoop_append a (f1 :: (body ++ f2 :: b)) false [], hcode]
  congr 1
  simp only [ppLoop, hf1, if_true, Bool.not_false]
  congr 1
  rw [ppLoop_append body (f2 :: b) true f1, ppLoop_raw body f1 hbody,
    codeAfter_no_fence body true hbody]
  congr 1
  simp only [ppLoop, hf2, if_true, Bool.not_true]

/-- Witness for C2 on a concrete input with one matched fenced region. -/
theorem c2_witness :
    splitLines (preprocess_markdown exC2) =
      processLines exC2a ++
        exC2f1 :: (exC2body ++ exC2f2 :: ppLoop false exC2f2 exC2b) :=
  c2_fenced_region_verbatim exC2 exC2a exC2body exC2b exC2f1 exC2f2
    (by decide) (by decide) (by decide) (by decide) (by decide)

/-- C7: when the fence markers are unbalanced (an odd number of fence lines
in the whole input), no error is reported and every line after the final
fence marker is emitted unchanged, with no escaping and no blank-line
insertion. -/
theorem c7_unmatched_fence_permissive (s : List Char) (a b : List (List Char))
    (f : List Char) (hs : splitLines s = a ++ f :: b)
    (hf : isFenceLine f = true)
    (hb : ∀ l ∈ b, isFenceLine l = false)
    (hodd : (a ++ f :: b).countP (fun l => isFenceLine l) % 2 = 1) :
    splitLines (preprocess_markdown s) = processLines a ++ f :: b := by
  have hca : codeAfter false a = false := by
    have hcb : b.countP (fun l => isFenceLine l) = 0 :=
      List.countP_eq_zero.mpr (fun x hx => by simp [hb x hx])
    simp only [List.countP_append, List.countP_cons, hcb, hf, if_true] at hodd
    have h0 : a.countP (fun l => isFenceLine l) % 2 = 0 := by omega
    rw [codeAfter_parity a false, h0]
    rfl
  rw [splitLines_preprocess, hs]
  unfold processLines
  rw [ppLoop_append a (f :: b) false [], hca]
  congr 1
  simp only [ppLoop, hf, if_true, Bool.not_false]
  rw [ppLoop_raw b f hb]

/-- Witness for C7 on a concrete input with a single unmatched fence. -/
theorem c7_witness :
    splitLines (preprocess_markdown exC7) =
      processLines exC7a ++ exC7f :: exC7b :=
  c7_unmatched_fence_permissive exC7 exC7a exC7b exC7f (by decide) (by decide)
    (by decide) (by decide)

/-- C3: outside fenced code, a line whose escaped form starts with a bullet
or numbered-list marker gets exactly one empty line inserted immediately
before it if and only if the previously emitted output line is non-empty
after trimming, does not start with a bullet marker, does not match the
numbered marker, and does not start with a header marker. -/
theorem c3_blank_line_insertion (a : List (List Char)) (l : List Char)
    (rest : List (List Char)) (hcode : codeAfter false a = false)
    (hl : isFenceLine l = false) :
    processLines (a ++ l :: rest) =
      processLines a ++
        (if ((startsDash (escapeLine l) || startsNumDot (escapeLine l)) &&
            (!(stripChars ((processLines a).getLastD [])).isEmpty &&
              !(startsDash ((processLines a).getLastD [])) &&
              !(startsNumDot ((processLines a).getLastD [])) &&
              !(startsHash ((processLines a).getLastD [])))) = true then
          [] :: escapeLine l :: ppLoop false (escapeLine l) rest
        else escapeLine l :: ppLoop false (escapeLine l) rest) := by
  unfold processLines
  rw [ppLoop_append a (l :: rest) false [], hcode]
  congr 1
  rw [show prevAfter false [] a = (ppLoop false [] a).getLastD [] from
    (ppLoop_getLastD a false []).symm]
  simp only [ppLoop, hl, if_false, Bool.false_eq_true]
  rfl

/-- Witness for C3: a blank line is inserted between prose and a bullet. -/
theorem c3_witness :
    processLines (exC3a ++ exC3l :: []) =
      ["Some text".toList, [], "- item".toList] :=
  (c3_blank_line_insertion exC3a exC3l [] (by decide) (by decide)).trans
    (by decide)

/-- C6: adjacent heterogeneous list items (a numbered item directly after a
bullet item, or a bullet directly after a numbered item) never receive a
separating blank line. -/
theorem c6_heterogeneous_list_no_blank (a : List (List Char)) (l : List Char)
    (rest : List (List Char)) (hcode : codeAfter false a = false)
    (hl : isFenceLine l = false)
    (hhet :
      (startsDash ((processLines a).getLastD []) = true ∧
        startsNumDot (escapeLine l) = true) ∨
      (startsNumDot ((processLines a).getLastD []) = true ∧
        startsDash (escapeLine l) = true)) :
    processLines (a ++ l :: rest) =
      processLines a ++ escapeLine l :: ppLoop false (escapeLine l) rest := by
  unfold processLines at hhet ⊢
  rw [ppLoop_append a (l :: rest) false [], hcode]
  congr 1
  have hprev : prevAfter false [] a = (ppLoop false [] a).getLastD [] :=
    (ppLoop_getLastD a false []).symm
  have hok : okPrev ((ppLoop false [] a).getLastD []) = false := by
    rcases hhet with ⟨h1, _⟩ | ⟨h1, _⟩
    · unfold okPrev
      rw [h1]
      simp
    · unfold okPrev
      rw [h1]
      simp
  have hnb : needsBlank (escapeLine l) (prevAfter false [] a) = false := by
    rw [hprev]
    unfold needsBlank
    rw [hok]
    simp
  simp only [ppLoop, hl, hnb, if_false, Bool.false_eq_true]

/-- Witness for C6: a numbered item directly after a bullet item. -/
theorem c6_witness :
    processLines (exC6a ++ exC6l :: []) =
      ["- first".toList, "1. second".toList] :=
  (c6_heterogeneous_list_no_blank exC6a exC6l [] (by decide) (by decide)
    (Or.inl ⟨by decide, by decide⟩)).trans (by decide)

/-- C8: for a path naming a single file, `get_md_files` returns the
one-element list exactly when the lowercased suffix is `.md`, and the empty
list otherwise; for a directory, a path is returned exactly when it is a
filesystem entry matching the glob pattern (recursive or top-level) and is
a regular file, the result is sorted by full path, and the result is empty
when no file matches. -/
theorem c8_get_md_files_contract (fs : FS) (p : List String) (r : Bool) :
    (fs.isFile p = true →
      ((suffixLower p = mdExt → get_md_files fs p r = [p]) ∧
        (suffixLower p ≠ mdExt → get_md_files fs p r = []))) ∧
    (fs.isFile p = false →
      ((∀ f, f ∈ get_md_files fs p r ↔
          f ∈ fs.entries ∧ matchesGlob p r f = true ∧ fs.isFile f = true) ∧
        List.Sorted pathR (get_md_files fs p r) ∧
        ((∀ f ∈ fs.files, matchesGlob p r f = false) →
          get_md_files fs p r = []))) := by
  constructor
  · intro hfile
    constructor
    · intro hsuf
      unfold get_md_files
      rw [if_pos hfile, if_pos (beq_iff_eq.mpr hsuf)]
    · intro hsuf
      unfold get_md_files
      rw [if_pos hfile, if_neg (fun hc => hsuf (beq_iff_eq.mp hc))]
  · intro hdir
    have hform : get_md_files fs p r =
        (sortPaths (globMd fs p r)).filter (fun f => fs.isFile f) := by
      unfold get_md_files
      rw [if_neg (by simp [hdir])]
    have hmem : ∀ f, f ∈ get_md_files fs p r ↔
        f ∈ fs.entries ∧ matchesGlob p r f = true ∧ fs.isFile f = true := by
      intro f
      rw [hform, List.mem_filter]
      constructor
      · rintro ⟨hin, hisf⟩
        have hin2 : f ∈ globMd fs p r :=
          (List.perm_insertionSort pathR (globMd fs p r)).mem_iff.mp hin
        obtain ⟨hent, hmatch⟩ := List.mem_filter.mp hin2
        exact ⟨hent, hmatch, hisf⟩
      · rintro ⟨hent, hmatch, hisf⟩
        refine ⟨?_, hisf⟩
        exact (List.perm_insertionSort pathR (globMd fs p r)).mem_iff.mpr
          (List.mem_filter.mpr ⟨hent, hmatch⟩)
    refine ⟨hmem, ?_, ?_⟩
    · rw [hform]
      exact List.Pairwise.filter _
        (@List.sorted_insertionSort (List String) pathR _
          ⟨fun a b => charListLe_total _ _⟩
          ⟨fun a b c => charListLe_trans _ _ _⟩ (globMd fs p r))
    · intro hnone
      rw [List.eq_nil_iff_forall_not_mem]
      intro f hf
      obtain ⟨_, hmatch, hisf⟩ := (hmem f).mp hf
      have hff : f ∈ fs.files := of_decide_eq_true hisf
      rw [hnone f hff] at hmatch
      exact Bool.false_ne_true hmatch

/-- Witness for C8 on a concrete directory tree. -/
theorem c8_witness :
    fs8.isFile (["docs"]) = false ∧
      ["docs", "a.md"] ∈ get_md_files fs8 (["docs"]) true :=
  ⟨by decide,
    (((c8_get_md_files_contract fs8 (["docs"]) true).2 (by decide)).1
      (["docs", "a.md"])).mpr ⟨by decide, by decide, by decide⟩⟩

/-- C9: `generate_pdf` and `generate_epub` report a fatal diagnostic in
exactly two cases, a missing input path or no markdown files found under
it; otherwise they write the artifact named `<name>_v<version>` with the
format's extension into the output directory. -/
theorem c9_generate_exit_behavior (fs : FS) (ver : String)
    (inp out : List String) :
    ((∃ e, generate_pdf fs ver inp out = .error e) ↔
      fs.pathExists inp = false ∨ get_md_files fs inp true = []) ∧
    ((∃ e, generate_epub fs ver inp out = .error e) ↔
      fs.pathExists inp = false ∨ get_md_files fs inp true = []) ∧
    (fs.pathExists inp = true → get_md_files fs inp true ≠ [] →
      generate_pdf fs ver inp out =
        .ok (out ++ [deriveName fs inp ++ "_v" ++ ver ++ ".pdf"]) ∧
      generate_epub fs ver inp out =
        .ok (out ++ [deriveName fs inp ++ "_v" ++ ver ++ ".epub"])) := by
  by_cases hex : fs.pathExists inp = true
  · by_cases hmd : get_md_files fs inp true = []
    · refine ⟨?_, ?_, ?_⟩
      · simp [generate_pdf, hex, hmd]
      · simp [generate_epub, hex, hmd]
      · intro _ hne
        exact absurd hmd hne
    · refine ⟨?_, ?_, ?_⟩
      · simp [generate_pdf, hex, hmd, List.isEmpty_iff]
      · simp [generate_epub, hex, hmd, List.isEmpty_iff]
      · intro _ _
        constructor
        · simp [generate_pdf, hex, hmd, List.isEmpty_iff]
        · simp [generate_epub, hex, hmd, List.isEmpty_iff]
  · have hex2 : fs.pathExists inp = false := by simpa using hex
    refine ⟨?_, ?_, ?_⟩
    · simp [generate_pdf, hex2]
    · simp [generate_epub, hex2]
    · intro hcon
      exact absurd hcon hex

/-- Witness for C9 on a concrete tree: a valid directory input yields the
named artifacts. -/
theorem c9_witness :
    generate_pdf fs9 "1.0" (["book"]) (["out"]) =
        Except.ok (["out", "book_v1.0.pdf"]) ∧
      generate_epub fs9 "1.0" (["book"]) (["out"]) =
        Except.ok (["out", "book_v1.0.epub"]) := by
  have h := (c9_generate_exit_behavior fs9 "1.0" (["book"]) (["out"])).2.2
    (by decide) (by decide)
  have h1 : (["out"] ++ [deriveName fs9 (["book"]) ++ "_v" ++ "1.0" ++ ".pdf"]) =
      ["out", "book_v1.0.pdf"] := by decide
  have h2 : (["out"] ++ [deriveName fs9 (["book"]) ++ "_v" ++ "1.0" ++ ".epub"]) =
      ["out", "book_v1.0.epub"] := by decide
  exact ⟨h.1.trans (congrArg Except.ok h1), h.2.trans (congrArg Except.ok h2)⟩

/-- C10: the markdown extension is matched asymmetrically by
`get_md_files`: a single-file path is accepted case-insensitively (the
suffix is lowercased before comparison, so a file named with the uppercase
extension is returned), while directory scanning matches the literal glob
text `.md`, so a file whose name ends in the uppercase `.MD` inside a
directory is never returned. -/
theorem c10_extension_case_asymmetry (fs : FS) (p f : List String) (r : Bool) :
    (fs.isFile p = true → suffixLower p = mdExt → get_md_files fs p r = [p]) ∧
    (fs.isFile p = false →
      (['.', 'M', 'D'] : List Char).isSuffixOf (pathName f).toList = true →
      f ∉ get_md_files fs p r) := by
  constructor
  · intro hfile hsuf
    unfold get_md_files
    rw [if_pos hfile, if_pos (beq_iff_eq.mpr hsuf)]
  · intro hdir hMD hmem
    unfold get_md_files at hmem
    rw [if_neg (by simp [hdir])] at hmem
    obtain ⟨hin, _⟩ := List.mem_filter.mp hmem
    have hin2 : f ∈ globMd fs p r :=
      (List.perm_insertionSort pathR (globMd fs p r)).mem_iff.mp hin
    obtain ⟨_, hmatch⟩ := List.mem_filter.mp hin2
    have hlast : matchLast f = true := by
      unfold matchesGlob at hmatch
      by_cases hr : r = true
      · rw [hr] at hmatch
        simp only [if_true] at hmatch
        rw [Bool.and_eq_true] at hmatch
        exact hmatch.2
      · have hr2 : r = false := by simpa using hr
        rw [hr2] at hmatch
        simp only [Bool.false_eq_true, if_false] at hmatch
        rw [Bool.and_eq_true] at hmatch
        exact hmatch.2
    have hname : matchesStarMd (pathName f) = true := by
      unfold matchLast at hlast
      cases hgl : f.getLast? with
      | none => rw [hgl] at hlast; simp at hlast
      | some name =>
        rw [hgl] at hlast
        have : pathName f = name := by
          unfold pathName
          rw [List.getLastD_eq_getLast?, hgl]
          rfl
        rw [this]
        exact hlast
    have hsuf1 : mdExt <:+ (pathName f).toList :=
      List.isSuffixOf_iff_suffix.mp hname
    have hsuf2 : (['.', 'M', 'D'] : List Char) <:+ (pathName f).toList :=
      List.isSuffixOf_iff_suffix.mp hMD
    obtain ⟨t1, ht1⟩ := hsuf1
    obtain ⟨t2, ht2⟩ := hsuf2
    have hlen : t1.length = t2.length := by
      have e1 := congrArg List.length ht1
      have e2 := congrArg List.length ht2
      simp [List.length_append, mdExt] at e1 e2
      omega
    have heq : mdExt = (['.', 'M', 'D'] : List Char) :=
      (List.append_inj (ht1.trans ht2.symm) hlen).2
    exact absurd heq (by decide)

/-- Witness for C10: the concrete uppercase-extension file is returned when
named directly and skipped by the directory scan. -/
theorem c10_witness :
    get_md_files fs10a (["README.MD"]) true = [["README.MD"]] ∧
      ["d", "x.MD"] ∉ get_md_files fs10b (["d"]) true :=
  ⟨(c10_extension_case_asymmetry fs10a (["README.MD"]) (["README.MD"]) true).1
      (by decide) (by decide),
    (c10_extension_case_asymmetry fs10b (["d"]) (["d", "x.MD"]) true).2
      (by decide) (by decide)⟩
